import Mathlib

/-!
Verification of the ingestion core of the historical-research-assistant
repository: the document Registry (`src/core/database.py`), the adaptive
chunker and vector-index lifecycle (`src/core/vector_store.py`), the batch
accumulator (`src/components/batch_processor.py`) and the sync orchestrator
(`src/components/document_sync.py`), shallowly embedded in Lean.

External collaborators (the SQLite engine, the embedding provider, the
Qdrant client, the tokenizer and the recursive text splitter) are modelled
as oracles/parameters; everything else follows the Python source line by
line.
-/

namespace HRA

/-- The metadata key used by `DocumentBatchProcessor.add_document` to tag
every chunk with its parent document's hash. -/
def contentHashKey : String := "content_hash"

/-- Document status literals used by the Registry. -/
def statusPending : String := "pending"

/-- Status written after a successful batch flush. -/
def statusEmbedded : String := "embedded"

/-- Status written on a processing failure. -/
def statusError : String := "error"

/-- A LangChain `Document` as the batch processor sees it: page content
plus a string-keyed metadata dictionary (modelled as an association list;
only string values are ever read or written by the embedded code). -/
structure Chunk where
  pageContent : String
  metadata : List (String × String)
deriving Repr, DecidableEq

/-- `d.get(k)` on a string-valued Python dict (association list). -/
def lookupStr (d : List (String × String)) (k : String) : Option String :=
  (d.find? (fun p => p.1 = k)).map (fun p => p.2)

/-- `chunk.metadata.get(key)` — Python `dict.get`, `None` when absent. -/
def Chunk.getMeta (c : Chunk) (k : String) : Option String :=
  lookupStr c.metadata k

/-- `chunk.metadata[key] = v` — Python dict assignment (replace or add). -/
def Chunk.setMeta (c : Chunk) (k v : String) : Chunk :=
  { c with metadata := (k, v) :: c.metadata.filter (fun p => p.1 ≠ k) }

/-- Lookup in a Python dict modelled as an association list. -/
def dictGet (d : List (String × Nat)) (k : String) : Option Nat :=
  (d.find? (fun p => p.1 = k)).map (fun p => p.2)

/-- `d[k] = v` on a Python dict modelled as an association list. -/
def dictSet (d : List (String × Nat)) (k : String) (v : Nat) : List (String × Nat) :=
  (k, v) :: d.filter (fun p => p.1 ≠ k)

/-- Python truthiness of an `Option String` (`None` and `""` are falsy),
as tested by `if chunk_hash:` in `flush_batch`. -/
def truthy : Option String → Bool
  | none => false
  | some s => s ≠ ""

/-- Mutable state of `DocumentBatchProcessor`
(`src/components/batch_processor.py`): the configured batch size, the
staging buffer, the processed-batch counter and the per-document chunk
counts. (`project_name` and `collection_name` are only forwarded to the
external `embed_documents` call and carry no behaviour.) -/
structure BatchState where
  batchSize : Nat
  stagingBuffer : List Chunk
  batchCount : Nat
  documentChunkCounts : List (String × Nat)
deriving Repr, DecidableEq

/-- `DocumentBatchProcessor(batch_size, ...)` — fresh state. -/
def BatchState.init (batchSize : Nat) : BatchState :=
  ⟨batchSize, [], 0, []⟩

/-- Outcome of a call into the batch processor: the successor state, the
list of `embed_documents` invocations it performed (each recorded with the
exact chunk list passed to the provider), the unconsumed tail of the
provider-outcome oracle, and either the returned value or a propagated
exception (`Except.error`). -/
structure BatchCall (α : Type) where
  state : BatchState
  embeds : List (List Chunk)
  plan : List Bool
  result : Except Unit α
deriving Repr

/-- The loop body of `flush_batch`'s update collection: a chunk
contributes `(chunk_hash, document_chunk_counts[chunk_hash])` when its
`content_hash` metadata is truthy (present and non-empty — Python
`if chunk_hash and chunk_hash in self.document_chunk_counts`) and recorded
in the chunk-count dict. -/
def updateOf (counts : List (String × Nat)) (c : Chunk) :
    Option (String × Nat) :=
  match c.getMeta contentHashKey with
  | some h =>
    if h ≠ "" ∧ (dictGet counts h).isSome then
      (dictGet counts h).map (fun n => (h, n))
    else none
  | none => none

/-- `DocumentBatchProcessor.flush_batch`. The embedding provider is an
oracle `plan : List Bool`: each `embed_documents` call consumes one entry
(`true` = success, missing entries default to success). On provider
failure the Python code builds `error_updates` but discards it, clears the
buffer and re-raises; this model returns `Except.error ()` with the buffer
cleared and the batch counter not incremented, exactly as the source. -/
def flush_batch (plan : List Bool) (s : BatchState) :
    BatchCall (List (String × Nat)) :=
  if s.stagingBuffer = [] then
    ⟨s, [], plan, .ok []⟩
  else
    let ok := plan.headD true
    let rest := plan.tail
    if ok then
      let updates := s.stagingBuffer.filterMap (updateOf s.documentChunkCounts)
      ⟨{ s with stagingBuffer := [], batchCount := s.batchCount + 1 },
        [s.stagingBuffer], rest, .ok updates⟩
    else
      ⟨{ s with stagingBuffer := [] }, [s.stagingBuffer], rest, .error ()⟩

/-- `DocumentBatchProcessor.add_document(chunks, content_hash,
chunk_count)`: tag every chunk with the document's hash, record the chunk
count, extend the staging buffer, and flush when the buffer reaches the
batch size. Returns `none` when no flush occurred (Python `None`). -/
def add_document (plan : List Bool) (s : BatchState)
    (chunks : List Chunk) (content_hash : String) (chunk_count : Nat) :
    BatchCall (Option (List (String × Nat))) :=
  let tagged := chunks.map (fun c => c.setMeta contentHashKey content_hash)
  let s1 : BatchState :=
    { s with
      documentChunkCounts := dictSet s.documentChunkCounts content_hash chunk_count
      stagingBuffer := s.stagingBuffer ++ tagged }
  if s1.stagingBuffer.length ≥ s1.batchSize then
    let r := flush_batch plan s1
    ⟨r.state, r.embeds, r.plan, r.result.map some⟩
  else
    ⟨s1, [], plan, .ok none⟩

/-- `DocumentBatchProcessor.finalize`: flush any remaining chunks. -/
def finalize (plan : List Bool) (s : BatchState) :
    BatchCall (List (String × Nat)) :=
  if s.stagingBuffer ≠ [] then flush_batch plan s
  else ⟨s, [], plan, .ok []⟩

/-! ## Document Registry (`src/core/database.py`) -/

/-- One row of the `documents` table (`ensure_db` schema): surrogate id,
path, parser metadata, chunk count, unique content hash, status and
insertion timestamp. Metadata/timestamp fields are kept as opaque strings. -/
structure Row where
  id : Nat
  path : String
  citation : Option String
  source_type : Option String
  source_id : Option String
  date : Option String
  num_chunks : Nat
  content_hash : String
  status : String
  added_at : String
deriving Repr, DecidableEq

/-- The `documents` table: rows in insertion order (ids ascending). -/
abbrev Registry := List Row

/-- `document_exists(con, content_hash)` — `SELECT 1 ... WHERE content_hash = ?`. -/
def document_exists (reg : Registry) (content_hash : String) : Bool :=
  reg.any (fun r => r.content_hash = content_hash)

/-- Parser output: `{page_content, metadata}`; `metadata` is the opaque
dict `insert_document` and the chunker copy around. -/
structure Parsed where
  page_content : String
  metadata : List (String × String)
deriving Repr, DecidableEq

/-- `insert_document(con, path, parsed, content_hash, num_chunks)` — a
plain SQL INSERT with `status='pending'`. The `content_hash TEXT UNIQUE`
column of the `ensure_db` schema makes SQLite reject a duplicate hash with
an IntegrityError and leave the table unchanged; that storage-layer
behaviour is the `Except.error` branch. -/
def insert_document (reg : Registry) (path : String) (parsed : Parsed)
    (content_hash : String) (num_chunks : Nat) (now : String) :
    Except Unit Registry :=
  if document_exists reg content_hash then .error ()
  else .ok (reg ++ [{
    id := reg.length + 1
    path := path
    citation := lookupStr parsed.metadata "citation"
    source_type := lookupStr parsed.metadata "source_type"
    source_id := lookupStr parsed.metadata "source_id"
    date := lookupStr parsed.metadata "date"
    num_chunks := num_chunks
    content_hash := content_hash
    status := statusPending
    added_at := now }])

/-- An insert attempt as the storage layer completes it: on a
duplicate-hash IntegrityError the SQL statement is rejected and the table
is left unchanged (`false` = the attempt raised). -/
def attempt_insert (reg : Registry) (path : String) (parsed : Parsed)
    (content_hash : String) (num_chunks : Nat) (now : String) :
    Registry × Bool :=
  match insert_document reg path parsed content_hash num_chunks now with
  | .ok r => (r, true)
  | .error _ => (reg, false)

/-- `update_document_status(con, content_hash, num_chunks, status)` — one
`UPDATE documents SET num_chunks=?, status=? WHERE content_hash=?`; a
non-matching hash updates zero rows and raises nothing. -/
def update_document_status (reg : Registry) (content_hash : String)
    (num_chunks : Nat) (status : String) : Registry :=
  reg.map (fun r =>
    if r.content_hash = content_hash then
      { r with num_chunks := num_chunks, status := status }
    else r)

/-- `list_documents_by_status(con, status)` — `SELECT * WHERE status=?`
(the `ORDER BY added_at DESC` display ordering is immaterial here). -/
def list_documents_by_status (reg : Registry) (status : String) : List Row :=
  reg.filter (fun r => r.status = status)

/-! ## Adaptive chunker (`src/core/vector_store.py`) -/

/-- `adaptive_chunk_documents(docs, model)`: per document, measure its
token count with the tokenizer (oracle `tok`) and either keep it whole
(`t < 300`) or split it with a `RecursiveCharacterTextSplitter` (oracle
`split chunk_size chunk_overlap doc`) at the tier's parameters. -/
def adaptive_chunk_documents (tok : String → Nat)
    (split : Nat → Nat → Chunk → List Chunk) (docs : List Chunk) :
    List Chunk :=
  docs.flatMap (fun doc =>
    let token_count := tok doc.pageContent
    if token_count < 300 then [doc]
    else if token_count < 800 then split 400 100 doc
    else if token_count < 2000 then split 600 120 doc
    else split 800 150 doc)

/-! ## Vector index lifecycle (`src/core/vector_store.py`) -/

/-- Observable actions of `get_qdrant_client` against the operating
environment. -/
inductive QEvent where
  | openAttempt
  | removeLockFile (name : String)
  | sleep
deriving Repr, DecidableEq

/-- `force_clear_qdrant_locks(project_name)`: delete every `*.lock` file
in the project's qdrant directory, then wait 2 s. Returns the directory's
remaining files and the performed events. -/
def force_clear_qdrant_locks (files : List String) :
    List String × List QEvent :=
  let locks := files.filter (fun f => f.endsWith ".lock")
  (files.filter (fun f => ¬ f.endsWith ".lock"),
    locks.map QEvent.removeLockFile ++ [QEvent.sleep])

/-- `get_qdrant_client(project_name)` with no cached client for the
project (the fresh-open path). The environment is an oracle: `open1` is
the outcome of the first `QdrantClient(path)` construction, `open2` the
outcome of the retry after `force_clear_qdrant_locks`; `files` are the
entries of the qdrant directory. Returns the performed events and
`Except.error` for the final `raise RuntimeError`. -/
def get_qdrant_client (files : List String) (open1 open2 : Bool) :
    List QEvent × Except Unit Unit :=
  if open1 then ([QEvent.openAttempt], .ok ())
  else
    let cleared := force_clear_qdrant_locks files
    if open2 then
      ([QEvent.openAttempt] ++ cleared.2 ++ [QEvent.openAttempt], .ok ())
    else
      ([QEvent.openAttempt] ++ cleared.2 ++ [QEvent.openAttempt], .error ())

/-! ## Sync orchestrator (`src/components/document_sync.py`) -/

/-- A file discovered by `scan_documents_folder` whose hash is unknown to
the Registry, together with the outcome the external parser collaborator
produces for it (`parse_file` may raise). -/
structure NewFile where
  path : String
  hash : String
  parse : Except Unit Parsed
deriving Repr

/-- Running state of one `sync_documents` pass: the Registry connection,
the batch processor, the unconsumed provider oracle, and the
`processed_count` / `errors` tallies. -/
structure SyncState where
  reg : Registry
  bp : BatchState
  plan : List Bool
  processed : Nat
  errors : Nat
  embeds : List (List Chunk)
deriving Repr

/-- One iteration of the `sync_documents` new-files loop
(`src/components/document_sync.py`, "Process new files first"): parse the
file (on failure, record the error and continue), insert it into the
Registry as `pending` (a duplicate-hash IntegrityError is recorded and
skipped), chunk it, record `(len(chunks), "pending")`, hand the chunks to
the batch processor, and apply any flush's `(hash, count)` updates as
`embedded`. If the flush raised, the `except` block records the error and
marks only the current file `error` with `num_chunks=0`. Streamlit
display calls are omitted; Registry writes are assumed to succeed. -/
def processNewFile (tok : String → Nat)
    (split : Nat → Nat → Chunk → List Chunk) (st : SyncState)
    (f : NewFile) : SyncState :=
  match f.parse with
  | .error _ => { st with errors := st.errors + 1 }
  | .ok parsed =>
    match insert_document st.reg f.path parsed f.hash 0 "" with
    | .error _ => { st with errors := st.errors + 1 }
    | .ok reg1 =>
      let docs : List Chunk := [⟨parsed.page_content, parsed.metadata⟩]
      let chunked_docs := adaptive_chunk_documents tok split docs
      let reg2 := update_document_status reg1 f.hash chunked_docs.length statusPending
      let r := add_document st.plan st.bp chunked_docs f.hash chunked_docs.length
      match r.result with
      | .ok none =>
        { st with reg := reg2, bp := r.state, plan := r.plan,
                  embeds := st.embeds ++ r.embeds,
                  processed := st.processed + 1 }
      | .ok (some updates) =>
        let reg3 := updates.foldl
          (fun rg p => update_document_status rg p.1 p.2 statusEmbedded) reg2
        { st with reg := reg3, bp := r.state, plan := r.plan,
                  embeds := st.embeds ++ r.embeds,
                  processed := st.processed + 1 }
      | .error _ =>
        let reg3 := update_document_status reg2 f.hash 0 statusError
        { st with reg := reg3, bp := r.state, plan := r.plan,
                  embeds := st.embeds ++ r.embeds,
                  errors := st.errors + 1 }

/-- The new-files phase of `sync_documents` followed by the final
`batch_processor.finalize()` call and its status updates. The `finalize`
call sits outside any `try` in the source, so a provider failure there
propagates out of `sync_documents` — that is the `Except.error` (fatal)
branch. Returns the final state on a run that completes. -/
def sync_documents (tok : String → Nat)
    (split : Nat → Nat → Chunk → List Chunk) (plan : List Bool)
    (reg : Registry) (batch_size : Nat) (files : List NewFile) :
    Except Unit SyncState :=
  let st0 : SyncState := ⟨reg, BatchState.init batch_size, plan, 0, 0, []⟩
  let st1 := files.foldl (processNewFile tok split) st0
  let r := finalize st1.plan st1.bp
  match r.result with
  | .error _ => .error ()
  | .ok final_updates =>
    let reg' := final_updates.foldl
      (fun rg p => update_document_status rg p.1 p.2 statusEmbedded) st1.reg
    .ok { st1 with reg := reg', bp := r.state, plan := r.plan,
                   embeds := st1.embeds ++ r.embeds }

/-! ## Runs of the accumulator with a healthy provider -/

/-- Cumulative outcome of a sequence of `add_document` calls: final
processor state, all `embed_documents` invocations, and the update list
returned by each flush that occurred. -/
structure AddsOut where
  state : BatchState
  embeds : List (List Chunk)
  updates : List (List (String × Nat))
deriving Repr

/-- Run a sequence of `add_document(chunks, hash, count)` calls against an
always-succeeding embedding provider (the empty oracle defaults to
success), collecting every flushed batch and its returned update list. -/
def runAddsOk (s : BatchState) :
    List (List Chunk × String × Nat) → AddsOut
  | [] => ⟨s, [], []⟩
  | a :: rest =>
    let r := add_document [] s a.1 a.2.1 a.2.2
    let out := runAddsOk r.state rest
    ⟨out.state, r.embeds ++ out.embeds,
      (match r.result with | .ok (some u) => [u] | _ => []) ++ out.updates⟩

/-- The update list a successful flush returned, `[]` for an exception. -/
def exceptUpdates : Except Unit (List (String × Nat)) → List (String × Nat)
  | .ok u => u
  | .error _ => []

/-- Every batch sent to `embed_documents` during an accumulation cycle:
the flushes triggered by `add_document` plus the one `finalize` may
perform. -/
def allBatches (s : BatchState) (adds : List (List Chunk × String × Nat)) :
    List (List Chunk) :=
  let out := runAddsOk s adds
  out.embeds ++ (finalize [] out.state).embeds

/-- Every `(hash, count)` pair returned across an accumulation cycle: the
pairs of each `add_document`-triggered flush plus those of `finalize`. -/
def allPairs (s : BatchState) (adds : List (List Chunk × String × Nat)) :
    List (String × Nat) :=
  let out := runAddsOk s adds
  out.updates.flatten ++ exceptUpdates (finalize [] out.state).result

/-- The chunks of one `add_document` call as they enter the staging
buffer: each tagged with the document's content hash. -/
def taggedOf (a : List Chunk × String × Nat) : List Chunk :=
  a.1.map (fun c => c.setMeta contentHashKey a.2.1)

/-- The content hashes of a sequence of `add_document` calls. -/
def hashesOf (adds : List (List Chunk × String × Nat)) : List String :=
  adds.map (fun a => a.2.1)

/-- The chunks of a batch that belong to the document with hash `h`. -/
def filterHash (h : String) (l : List Chunk) : List Chunk :=
  l.filter (fun c => c.getMeta contentHashKey = some h)

/-- Total passage count of a sequence of `add_document` calls. -/
def totalPassages (adds : List (List Chunk × String × Nat)) : Nat :=
  (adds.map (fun a => a.1.length)).sum

/-! ## Concrete sync scenarios -/

/-- Tokenizer oracle for scenarios: every document is short (< 300
tokens), so the chunker keeps it whole as one passage. -/
def tokShort : String → Nat := fun _ => 0

/-- Splitter oracle for scenarios (never reached for short documents). -/
def splitNone : Nat → Nat → Chunk → List Chunk := fun _ _ _ => []

/-- Scenario file `a.txt`: parses fine, content hash `"a"`. -/
def fileA : NewFile := ⟨"a.txt", "a", .ok ⟨"contentA", []⟩⟩

/-- Scenario file `b.txt`: parses fine, content hash `"b"`. -/
def fileB : NewFile := ⟨"b.txt", "b", .ok ⟨"contentB", []⟩⟩

/-- Scenario file `c.txt`: parses fine, content hash `"c"`. -/
def fileC : NewFile := ⟨"c.txt", "c", .ok ⟨"contentC", []⟩⟩

/-- Registry snapshot: hash, chunk count and status of every row. -/
def regSnapshot (reg : Registry) : List (String × Nat × String) :=
  reg.map (fun r => (r.content_hash, r.num_chunks, r.status))

/-- The new/existing partition of scanned files in `sync_documents`: a
file whose hash the Registry already knows goes to `existing_files` (a
pure lookup — it is never re-parsed or re-inserted); only unknown hashes
become `new_files`. Returns `(new_files, existing_files)`. -/
def classify_scanned (reg : Registry) (files : List NewFile) :
    List NewFile × List NewFile :=
  (files.filter (fun fi => ¬ document_exists reg fi.hash),
   files.filter (fun fi => document_exists reg fi.hash))

/-! ## Helper lemmas -/

/-- Counting a value in a `filterMap` image counts the preimages that map
onto it. -/
theorem count_filterMap_eq_countP {α β : Type} [DecidableEq β]
    (f : α → Option β) (l : List α) (b : β) :
    (l.filterMap f).countP (fun x => x = b) =
      l.countP (fun a => f a = some b) := by
  induction l with
  | nil => rfl
  | cons x xs ih =>
    cases hfx : f x with
    | none => simp [List.filterMap_cons, hfx, List.countP_cons, ih]
    | some y =>
      simp only [List.filterMap_cons, hfx, List.countP_cons, ih]
      by_cases hy : y = b <;> simp [hy]

/-- A chunk contributes the pair `(h, n)` to a flush's update list exactly
when it is tagged with `h`, provided `h` is non-empty and recorded with
count `n`. -/
theorem updateOf_eq_some_iff (counts : List (String × Nat)) (c : Chunk)
    (h : String) (n : Nat) (hh : h ≠ "")
    (hd : dictGet counts h = some n) :
    (updateOf counts c = some (h, n)) ↔
      c.getMeta contentHashKey = some h := by
  unfold updateOf
  cases hm : c.getMeta contentHashKey with
  | none => simp
  | some h0 =>
    by_cases heq : h0 = h
    · subst heq
      simp [hh, hd]
    · rcases hd0 : dictGet counts h0 with _ | n0
      · by_cases h0e : h0 = ""
        · subst h0e
          simp [hd0, Ne.symm hh]
        · simp [hd0, h0e]
          exact fun hhh => heq hhh
      · by_cases h0e : h0 = ""
        · subst h0e
          simp [hd0, Ne.symm hh]
        · simp [hd0, h0e]
          intro hhh
          exact absurd hhh heq

/-- Tagging writes the hash into the chunk's `content_hash` metadata. -/
theorem setMeta_getMeta (c : Chunk) (k v : String) :
    (c.setMeta k v).getMeta k = some v := by
  simp [Chunk.setMeta, Chunk.getMeta, lookupStr]

/-- `filterHash` distributes over append. -/
theorem filterHash_append (h : String) (l1 l2 : List Chunk) :
    filterHash h (l1 ++ l2) = filterHash h l1 ++ filterHash h l2 := by
  simp [filterHash]

/-- The chunks of an add are all kept by the filter for its own hash. -/
theorem filterHash_taggedOf_self (a : List Chunk × String × Nat) :
    filterHash a.2.1 (taggedOf a) = taggedOf a := by
  rw [filterHash, List.filter_eq_self]
  intro c hc
  rcases List.mem_map.1 hc with ⟨c0, _, rfl⟩
  simp [setMeta_getMeta]

/-- The chunks of an add are all dropped by the filter for another hash. -/
theorem filterHash_taggedOf_ne (h' : String) (a : List Chunk × String × Nat)
    (hne : h' ≠ a.2.1) :
    filterHash h' (taggedOf a) = [] := by
  rw [filterHash, List.filter_eq_nil_iff]
  intro c hc
  rcases List.mem_map.1 hc with ⟨c0, _, rfl⟩
  simp [setMeta_getMeta]
  exact fun hcc => hne hcc.symm

/-- Writing one key of the chunk-count dict leaves other keys unchanged. -/
theorem dictGet_dictSet_ne (d : List (String × Nat)) (k k' : String)
    (v : Nat) (hne : k' ≠ k) :
    dictGet (dictSet d k v) k' = dictGet d k' := by
  unfold dictGet dictSet
  rw [List.find?_cons_of_neg _ (by simp [Ne.symm hne])]
  congr 1
  induction d with
  | nil => rfl
  | cons p ps ih =>
    by_cases hp : p.1 = k
    · rw [List.filter_cons_of_neg (by simp [hp])]
      rw [List.find?_cons_of_neg _ (by simp [hp, Ne.symm hne])]
      exact ih
    · rw [List.filter_cons_of_pos (by simp [hp])]
      by_cases hk' : p.1 = k'
      · rw [List.find?_cons_of_pos _ (by simp [hk']),
          List.find?_cons_of_pos _ (by simp [hk'])]
      · rw [List.find?_cons_of_neg _ (by simp [hk']),
          List.find?_cons_of_neg _ (by simp [hk'])]
        exact ih

/-- Writing a key of the chunk-count dict makes it readable. -/
theorem dictGet_dictSet_self (d : List (String × Nat)) (k : String) (v : Nat) :
    dictGet (dictSet d k v) k = some v := by
  simp [dictGet, dictSet]

/-- `runAddsOk` on an add that leaves the buffer under capacity: the
chunks are tagged and appended, the count recorded, and no flush occurs. -/
theorem runAddsOk_cons_noflush (s : BatchState) (cs : List Chunk)
    (h : String) (n : Nat) (rest : List (List Chunk × String × Nat))
    (hlen : (s.stagingBuffer ++ taggedOf (cs, h, n)).length < s.batchSize) :
    runAddsOk s ((cs, h, n) :: rest) =
      runAddsOk ⟨s.batchSize, s.stagingBuffer ++ taggedOf (cs, h, n),
        s.batchCount, dictSet s.documentChunkCounts h n⟩ rest := by
  simp only [runAddsOk, add_document]
  rw [if_neg (by simpa [taggedOf] using Nat.not_le.2 hlen)]
  simp [taggedOf]

/-- `runAddsOk` on an add that fills the buffer to capacity: the whole
buffer (old content plus this add's tagged chunks) is flushed as one
batch, its update list recorded, and the buffer cleared. -/
theorem runAddsOk_cons_flush (s : BatchState) (cs : List Chunk)
    (h : String) (n : Nat) (rest : List (List Chunk × String × Nat))
    (hlen : s.batchSize ≤ (s.stagingBuffer ++ taggedOf (cs, h, n)).length)
    (hne : s.stagingBuffer ++ taggedOf (cs, h, n) ≠ []) :
    runAddsOk s ((cs, h, n) :: rest) =
      ⟨(runAddsOk ⟨s.batchSize, [], s.batchCount + 1,
          dictSet s.documentChunkCounts h n⟩ rest).state,
       (s.stagingBuffer ++ taggedOf (cs, h, n)) ::
         (runAddsOk ⟨s.batchSize, [], s.batchCount + 1,
            dictSet s.documentChunkCounts h n⟩ rest).embeds,
       ((s.stagingBuffer ++ taggedOf (cs, h, n)).filterMap
           (updateOf (dictSet s.documentChunkCounts h n))) ::
         (runAddsOk ⟨s.batchSize, [], s.batchCount + 1,
            dictSet s.documentChunkCounts h n⟩ rest).updates⟩ := by
  simp only [runAddsOk, add_document, flush_batch]
  rw [if_pos (by simpa [taggedOf] using hlen)]
  rw [if_neg (by simpa [taggedOf] using hne)]
  simp [taggedOf, Except.map]

/-- `runAddsOk` on the degenerate add of zero capacity and empty chunks:
the "flush" fires on an empty buffer, records an empty update list and no
provider call. -/
theorem runAddsOk_cons_degenerate (s : BatchState) (cs : List Chunk)
    (h : String) (n : Nat) (rest : List (List Chunk × String × Nat))
    (hlen : s.batchSize ≤ (s.stagingBuffer ++ taggedOf (cs, h, n)).length)
    (hemp : s.stagingBuffer ++ taggedOf (cs, h, n) = []) :
    runAddsOk s ((cs, h, n) :: rest) =
      ⟨(runAddsOk ⟨s.batchSize, [], s.batchCount,
          dictSet s.documentChunkCounts h n⟩ rest).state,
       (runAddsOk ⟨s.batchSize, [], s.batchCount,
          dictSet s.documentChunkCounts h n⟩ rest).embeds,
       [] :: (runAddsOk ⟨s.batchSize, [], s.batchCount,
          dictSet s.documentChunkCounts h n⟩ rest).updates⟩ := by
  simp only [runAddsOk, add_document, flush_batch]
  rw [if_pos (by simpa [taggedOf] using hlen)]
  rw [if_pos (by simpa [taggedOf] using hemp)]
  rcases List.append_eq_nil.1 hemp with ⟨h1, h2⟩
  simp [taggedOf] at h2 ⊢
  simp [h1, h2, Except.map]

/-- Every flush triggered by `add_document` sends at least a full batch:
the flush fires only once the buffer has reached the batch size, and it
sends the entire buffer. -/
theorem runAddsOk_batch_length (adds : List (List Chunk × String × Nat)) :
    ∀ s : BatchState, ∀ b ∈ (runAddsOk s adds).embeds,
      s.batchSize ≤ b.length := by
  induction adds with
  | nil =>
    intro s b hb
    simp [runAddsOk] at hb
  | cons a rest ih =>
    intro s b hb
    obtain ⟨cs, h, n⟩ := a
    by_cases hlen : s.batchSize ≤ (s.stagingBuffer ++ taggedOf (cs, h, n)).length
    · by_cases hemp : s.stagingBuffer ++ taggedOf (cs, h, n) = []
      · rw [runAddsOk_cons_degenerate s cs h n rest hlen hemp] at hb
        exact ih ⟨s.batchSize, [], s.batchCount,
          dictSet s.documentChunkCounts h n⟩ b hb
      · rw [runAddsOk_cons_flush s cs h n rest hlen hemp] at hb
        rcases List.mem_cons.1 hb with rfl | hb'
        · exact hlen
        · exact ih ⟨s.batchSize, [], s.batchCount + 1,
            dictSet s.documentChunkCounts h n⟩ b hb'
    · rw [runAddsOk_cons_noflush s cs h n rest (Nat.not_le.1 hlen)] at hb
      exact ih ⟨s.batchSize, s.stagingBuffer ++ taggedOf (cs, h, n),
        s.batchCount, dictSet s.documentChunkCounts h n⟩ b hb

/-- Chunk conservation: the flushed batches followed by the final buffer
are exactly the starting buffer followed by every add's tagged chunks, in
order. -/
theorem runAddsOk_conservation (adds : List (List Chunk × String × Nat)) :
    ∀ s : BatchState,
      (runAddsOk s adds).embeds.flatten ++
          (runAddsOk s adds).state.stagingBuffer =
        s.stagingBuffer ++ (adds.map taggedOf).flatten := by
  induction adds with
  | nil =>
    intro s
    simp [runAddsOk]
  | cons a rest ih =>
    intro s
    obtain ⟨cs, h, n⟩ := a
    by_cases hlen : s.batchSize ≤ (s.stagingBuffer ++ taggedOf (cs, h, n)).length
    · by_cases hemp : s.stagingBuffer ++ taggedOf (cs, h, n) = []
      · rw [runAddsOk_cons_degenerate s cs h n rest hlen hemp]
        rcases List.append_eq_nil.1 hemp with ⟨h1, h2⟩
        have := ih ⟨s.batchSize, [], s.batchCount,
          dictSet s.documentChunkCounts h n⟩
        simpa [h1, h2] using this
      · rw [runAddsOk_cons_flush s cs h n rest hlen hemp]
        have := ih ⟨s.batchSize, [], s.batchCount + 1,
          dictSet s.documentChunkCounts h n⟩
        simp only [List.flatten_cons, List.map_cons, List.append_assoc]
        rw [this]
        simp
    · rw [runAddsOk_cons_noflush s cs h n rest (Nat.not_le.1 hlen)]
      have := ih ⟨s.batchSize, s.stagingBuffer ++ taggedOf (cs, h, n),
        s.batchCount, dictSet s.documentChunkCounts h n⟩
      simpa [List.append_assoc] using this

/-- The whole-or-nothing invariant of the accumulator: starting from a
buffer containing none of the to-be-added hashes, (i) a hash no add
touches appears in at most one flushed batch — where it appears exactly as
it stood in the starting buffer — and likewise in the final buffer, and
(ii) each added document's chunks appear in a flushed batch (or the final
buffer) either in full or not at all. -/
theorem runAddsOk_filter_inv (adds : List (List Chunk × String × Nat)) :
    ∀ s : BatchState, (hashesOf adds).Nodup →
    (∀ a ∈ adds, filterHash a.2.1 s.stagingBuffer = []) →
    (∀ h0, h0 ∉ hashesOf adds →
      ((∀ b ∈ (runAddsOk s adds).embeds,
          filterHash h0 b = filterHash h0 s.stagingBuffer ∨
          filterHash h0 b = []) ∧
       (filterHash h0 (runAddsOk s adds).state.stagingBuffer =
          filterHash h0 s.stagingBuffer ∨
        filterHash h0 (runAddsOk s adds).state.stagingBuffer = []))) ∧
    (∀ a ∈ adds,
      ((∀ b ∈ (runAddsOk s adds).embeds,
          filterHash a.2.1 b = taggedOf a ∨ filterHash a.2.1 b = []) ∧
       (filterHash a.2.1 (runAddsOk s adds).state.stagingBuffer = taggedOf a ∨
        filterHash a.2.1 (runAddsOk s adds).state.stagingBuffer = []))) := by
  induction adds with
  | nil =>
    intro s _ _
    constructor
    · intro h0 _
      refine ⟨?_, Or.inl rfl⟩
      intro b hb
      simp [runAddsOk] at hb
    · intro a ha
      simp at ha
  | cons a0 rest ih =>
    intro s hnd hfresh
    obtain ⟨cs, h, n⟩ := a0
    have hcons : hashesOf ((cs, h, n) :: rest) = h :: hashesOf rest := rfl
    rw [hcons] at hnd
    have hnotin : h ∉ hashesOf rest := (List.nodup_cons.1 hnd).1
    have hndr : (hashesOf rest).Nodup := (List.nodup_cons.1 hnd).2
    have hfh : filterHash h s.stagingBuffer = [] :=
      hfresh (cs, h, n) (List.mem_cons_self _ _)
    have hfr : ∀ a ∈ rest, filterHash a.2.1 s.stagingBuffer = [] :=
      fun a ha => hfresh a (List.mem_cons_of_mem _ ha)
    have hbuf_cur :
        filterHash h (s.stagingBuffer ++ taggedOf (cs, h, n)) =
          taggedOf (cs, h, n) := by
      rw [filterHash_append, hfh, List.nil_append]
      exact filterHash_taggedOf_self (cs, h, n)
    have hne_rest : ∀ a, a ∈ rest → a.2.1 ≠ h := by
      intro a ha hc
      exact hnotin (hc ▸ List.mem_map_of_mem _ ha)
    have hbuf_rest : ∀ a ∈ rest,
        filterHash a.2.1 (s.stagingBuffer ++ taggedOf (cs, h, n)) = [] := by
      intro a ha
      rw [filterHash_append, hfr a ha, List.nil_append]
      exact filterHash_taggedOf_ne a.2.1 (cs, h, n) (hne_rest a ha)
    have hbuf_h0 : ∀ h0, h0 ∉ hashesOf ((cs, h, n) :: rest) →
        filterHash h0 (s.stagingBuffer ++ taggedOf (cs, h, n)) =
          filterHash h0 s.stagingBuffer := by
      intro h0 h0n
      rw [filterHash_append, filterHash_taggedOf_ne, List.append_nil]
      intro hc
      exact h0n (by rw [hcons, hc]; exact List.mem_cons_self _ _)
    have h0_not_rest : ∀ h0, h0 ∉ hashesOf ((cs, h, n) :: rest) →
        h0 ∉ hashesOf rest := by
      intro h0 h0n hc
      exact h0n (by rw [hcons]; exact List.mem_cons_of_mem _ hc)
    by_cases hlen : s.batchSize ≤ (s.stagingBuffer ++ taggedOf (cs, h, n)).length
    · by_cases hemp : s.stagingBuffer ++ taggedOf (cs, h, n) = []
      · -- degenerate: the triggered flush saw an empty buffer
        rw [runAddsOk_cons_degenerate s cs h n rest hlen hemp]
        rcases List.append_eq_nil.1 hemp with ⟨h1, _⟩
        have IH := ih ⟨s.batchSize, [], s.batchCount,
            dictSet s.documentChunkCounts h n⟩ hndr
          (by intro a _; rfl)
        constructor
        · intro h0 h0n
          have := IH.1 h0 (h0_not_rest h0 h0n)
          refine ⟨?_, ?_⟩
          · intro b hb
            rcases this.1 b hb with hcase | hcase
            · right; simpa using hcase
            · right; exact hcase
          · rcases this.2 with hcase | hcase
            · right; simpa using hcase
            · right; exact hcase
        · intro a ha
          rcases List.mem_cons.1 ha with rfl | har
          · have := IH.1 h hnotin
            refine ⟨?_, ?_⟩
            · intro b hb
              rcases this.1 b hb with hcase | hcase
              · right; simpa using hcase
              · right; exact hcase
            · rcases this.2 with hcase | hcase
              · right; simpa using hcase
              · right; exact hcase
          · exact IH.2 a har
      · -- a real flush of the whole buffer
        rw [runAddsOk_cons_flush s cs h n rest hlen hemp]
        have IH := ih ⟨s.batchSize, [], s.batchCount + 1,
            dictSet s.documentChunkCounts h n⟩ hndr
          (by intro a _; rfl)
        constructor
        · intro h0 h0n
          refine ⟨?_, ?_⟩
          · intro b hb
            rcases List.mem_cons.1 hb with rfl | hb'
            · left; exact hbuf_h0 h0 h0n
            · rcases (IH.1 h0 (h0_not_rest h0 h0n)).1 b hb' with hcase | hcase
              · right; simpa using hcase
              · right; exact hcase
          · rcases (IH.1 h0 (h0_not_rest h0 h0n)).2 with hcase | hcase
            · right; simpa using hcase
            · right; exact hcase
        · intro a ha
          rcases List.mem_cons.1 ha with rfl | har
          · refine ⟨?_, ?_⟩
            · intro b hb
              rcases List.mem_cons.1 hb with rfl | hb'
              · left; exact hbuf_cur
              · rcases (IH.1 h hnotin).1 b hb' with hcase | hcase
                · right; simpa using hcase
                · right; exact hcase
            · rcases (IH.1 h hnotin).2 with hcase | hcase
              · right; simpa using hcase
              · right; exact hcase
          · refine ⟨?_, ?_⟩
            · intro b hb
              rcases List.mem_cons.1 hb with rfl | hb'
              · right; exact hbuf_rest a har
              · exact (IH.2 a har).1 b hb'
            · exact (IH.2 a har).2
    · -- no flush: the buffer grows
      rw [runAddsOk_cons_noflush s cs h n rest (Nat.not_le.1 hlen)]
      have IH := ih ⟨s.batchSize, s.stagingBuffer ++ taggedOf (cs, h, n),
          s.batchCount, dictSet s.documentChunkCounts h n⟩ hndr
        (by intro a ha; exact hbuf_rest a ha)
      constructor
      · intro h0 h0n
        have := IH.1 h0 (h0_not_rest h0 h0n)
        refine ⟨?_, ?_⟩
        · intro b hb
          rcases this.1 b hb with hcase | hcase
          · left; rw [hcase]; exact hbuf_h0 h0 h0n
          · right; exact hcase
        · rcases this.2 with hcase | hcase
          · left; rw [hcase]; exact hbuf_h0 h0 h0n
          · right; exact hcase
      · intro a ha
        rcases List.mem_cons.1 ha with rfl | har
        · have := IH.1 h hnotin
          refine ⟨?_, ?_⟩
          · intro b hb
            rcases this.1 b hb with hcase | hcase
            · left; rw [hcase]; exact hbuf_cur
            · right; exact hcase
          · rcases this.2 with hcase | hcase
            · left; rw [hcase]; exact hbuf_cur
            · right; exact hcase
        · exact IH.2 a har

/-- A buffer with no chunk of hash `h` produces the same update pairs
whether or not the chunk-count dict gains an entry for `h`. -/
theorem filterMap_updateOf_dictSet (counts : List (String × Nat))
    (h : String) (n : Nat) (buf : List Chunk)
    (hbuf : filterHash h buf = []) :
    buf.filterMap (updateOf (dictSet counts h n)) =
      buf.filterMap (updateOf counts) := by
  induction buf with
  | nil => rfl
  | cons c cl ih =>
    rw [filterHash] at hbuf
    rcases hcc : decide (c.getMeta contentHashKey = some h) with _ | _
    · rw [List.filter_cons_of_neg (by simp [hcc])] at hbuf
      have ihh := ih (by rw [filterHash]; exact hbuf)
      simp only [List.filterMap_cons, ihh]
      have hcne : ¬ c.getMeta contentHashKey = some h := by
        simpa using hcc
      congr 1
      unfold updateOf
      cases hm : c.getMeta contentHashKey with
      | none => rfl
      | some h0 =>
        have : h0 ≠ h := fun hc => hcne (by rw [hm, hc])
        simp [dictGet_dictSet_ne counts h h0 n this]
    · exfalso
      have : c ∈ List.filter
          (fun c => decide (c.getMeta contentHashKey = some h)) (c :: cl) :=
        List.mem_filter.2 ⟨List.mem_cons_self _ _, hcc⟩
      rw [hbuf] at this
      simp at this

/-- The tagged chunks of one add all map to the document's own
`(hash, count)` pair when the dict records its count. -/
theorem filterMap_updateOf_tagged (counts : List (String × Nat))
    (cs : List Chunk) (h : String) (n : Nat) (hh : h ≠ "")
    (hd : dictGet counts h = some n) :
    (cs.map (fun c => c.setMeta contentHashKey h)).filterMap
        (updateOf counts) = cs.map (fun _ => (h, n)) := by
  induction cs with
  | nil => rfl
  | cons c cl ih =>
    simp only [List.map_cons, List.filterMap_cons]
    rw [show updateOf counts (c.setMeta contentHashKey h) = some (h, n) by
      simp [updateOf, setMeta_getMeta, hh, hd]]
    rw [ih]

/-- The `(hash, count)` pairs returned across a whole accumulation cycle
(flushes plus finalize): exactly the pairs the starting buffer would
produce, plus one pair per passage of each added non-empty document. -/
theorem runAddsOk_pairs (adds : List (List Chunk × String × Nat)) :
    ∀ s : BatchState, (hashesOf adds).Nodup →
    (∀ a ∈ adds, a.2.1 ≠ "") →
    (∀ a ∈ adds, filterHash a.2.1 s.stagingBuffer = []) →
    ∀ p, p ∈ allPairs s adds ↔
      (p ∈ s.stagingBuffer.filterMap (updateOf s.documentChunkCounts) ∨
       ∃ a, a ∈ adds ∧ a.1 ≠ [] ∧ p = (a.2.1, a.2.2)) := by
  induction adds with
  | nil =>
    intro s _ _ _ p
    by_cases hbe : s.stagingBuffer = []
    · simp [allPairs, runAddsOk, finalize, hbe, exceptUpdates]
    · simp [allPairs, runAddsOk, finalize, flush_batch, hbe, exceptUpdates]
  | cons a0 rest ih =>
    intro s hnd hne hfresh p
    obtain ⟨cs, h, n⟩ := a0
    have hcons : hashesOf ((cs, h, n) :: rest) = h :: hashesOf rest := rfl
    rw [hcons] at hnd
    have hnotin : h ∉ hashesOf rest := (List.nodup_cons.1 hnd).1
    have hndr : (hashesOf rest).Nodup := (List.nodup_cons.1 hnd).2
    have hner : ∀ a ∈ rest, a.2.1 ≠ "" :=
      fun a ha => hne a (List.mem_cons_of_mem _ ha)
    have hhne : h ≠ "" := hne (cs, h, n) (List.mem_cons_self _ _)
    have hfh : filterHash h s.stagingBuffer = [] :=
      hfresh (cs, h, n) (List.mem_cons_self _ _)
    have hfr : ∀ a ∈ rest, filterHash a.2.1 s.stagingBuffer = [] :=
      fun a ha => hfresh a (List.mem_cons_of_mem _ ha)
    have hne_rest : ∀ a, a ∈ rest → a.2.1 ≠ h := by
      intro a ha hc
      exact hnotin (hc ▸ List.mem_map_of_mem _ ha)
    have hbuf_rest : ∀ a ∈ rest,
        filterHash a.2.1 (s.stagingBuffer ++ taggedOf (cs, h, n)) = [] := by
      intro a ha
      rw [filterHash_append, hfr a ha, List.nil_append]
      exact filterHash_taggedOf_ne a.2.1 (cs, h, n) (hne_rest a ha)
    have hsplit :
        (s.stagingBuffer ++ taggedOf (cs, h, n)).filterMap
            (updateOf (dictSet s.documentChunkCounts h n)) =
          s.stagingBuffer.filterMap (updateOf s.documentChunkCounts) ++
            cs.map (fun _ => (h, n)) := by
      rw [List.filterMap_append]
      congr 1
      · exact filterMap_updateOf_dictSet s.documentChunkCounts h n
          s.stagingBuffer hfh
      · exact filterMap_updateOf_tagged (dictSet s.documentChunkCounts h n)
          cs h n hhne (dictGet_dictSet_self s.documentChunkCounts h n)
    have hmemconst : ∀ q : String × Nat,
        q ∈ cs.map (fun _ => (h, n)) ↔ cs ≠ [] ∧ q = (h, n) := by
      intro q
      cases cs <;> simp
    by_cases hlen : s.batchSize ≤ (s.stagingBuffer ++ taggedOf (cs, h, n)).length
    · by_cases hemp : s.stagingBuffer ++ taggedOf (cs, h, n) = []
      · -- degenerate: empty buffer "flushed", empty update list recorded
        rcases List.append_eq_nil.1 hemp with ⟨h1, h2⟩
        have h2' : cs = [] := by simpa [taggedOf] using h2
        have IH := ih ⟨s.batchSize, [], s.batchCount,
            dictSet s.documentChunkCounts h n⟩ hndr hner
          (by intro a _; rfl) p
        have hstep : allPairs s ((cs, h, n) :: rest) =
            allPairs ⟨s.batchSize, [], s.batchCount,
              dictSet s.documentChunkCounts h n⟩ rest := by
          unfold allPairs
          rw [runAddsOk_cons_degenerate s cs h n rest hlen hemp]
          simp
        rw [hstep, IH]
        simp [h1, h2']
      · -- a real flush
        have IH := ih ⟨s.batchSize, [], s.batchCount + 1,
            dictSet s.documentChunkCounts h n⟩ hndr hner
          (by intro a _; rfl) p
        have hstep : allPairs s ((cs, h, n) :: rest) =
            ((s.stagingBuffer ++ taggedOf (cs, h, n)).filterMap
              (updateOf (dictSet s.documentChunkCounts h n))) ++
            allPairs ⟨s.batchSize, [], s.batchCount + 1,
              dictSet s.documentChunkCounts h n⟩ rest := by
          unfold allPairs
          rw [runAddsOk_cons_flush s cs h n rest hlen hemp]
          simp
        rw [hstep, List.mem_append, IH, hsplit, List.mem_append, hmemconst p]
        constructor
        · rintro ((hp | hp) | (hp | ⟨a, ha, hp1, hp2⟩))
          · exact Or.inl hp
          · exact Or.inr ⟨(cs, h, n), List.mem_cons_self _ _, hp.1, hp.2⟩
          · simp at hp
          · exact Or.inr ⟨a, List.mem_cons_of_mem _ ha, hp1, hp2⟩
        · rintro (hp | ⟨a, ha, hp1, hp2⟩)
          · exact Or.inl (Or.inl hp)
          · rcases List.mem_cons.1 ha with rfl | har
            · exact Or.inl (Or.inr ⟨hp1, hp2⟩)
            · exact Or.inr (Or.inr ⟨a, har, hp1, hp2⟩)
    · -- no flush
      have IH := ih ⟨s.batchSize,
          s.stagingBuffer ++ taggedOf (cs, h, n), s.batchCount,
          dictSet s.documentChunkCounts h n⟩ hndr hner
        (by intro a ha; exact hbuf_rest a ha) p
      have hstep : allPairs s ((cs, h, n) :: rest) =
          allPairs ⟨s.batchSize, s.stagingBuffer ++ taggedOf (cs, h, n),
            s.batchCount, dictSet s.documentChunkCounts h n⟩ rest := by
        unfold allPairs
        rw [runAddsOk_cons_noflush s cs h n rest (Nat.not_le.1 hlen)]
      rw [hstep, IH, hsplit, List.mem_append, hmemconst p]
      constructor
      · rintro ((hp | hp) | ⟨a, ha, hp1, hp2⟩)
        · exact Or.inl hp
        · exact Or.inr ⟨(cs, h, n), List.mem_cons_self _ _, hp.1, hp.2⟩
        · exact Or.inr ⟨a, List.mem_cons_of_mem _ ha, hp1, hp2⟩
      · rintro (hp | ⟨a, ha, hp1, hp2⟩)
        · exact Or.inl (Or.inl hp)
        · rcases List.mem_cons.1 ha with rfl | har
          · exact Or.inl (Or.inr ⟨hp1, hp2⟩)
          · exact Or.inr ⟨a, har, hp1, hp2⟩

/-- A list of batches each at least `B` long flattens to at least
`B * count` chunks. -/
theorem flatten_length_ge (B : Nat) (L : List (List Chunk))
    (hL : ∀ b ∈ L, B ≤ b.length) :
    B * L.length ≤ L.flatten.length := by
  induction L with
  | nil => simp
  | cons x xs ih =>
    have h1 := hL x (List.mem_cons_self _ _)
    have h2 := ih (fun b hb => hL b (List.mem_cons_of_mem _ hb))
    simp only [List.flatten_cons, List.length_cons, List.length_append,
      Nat.mul_succ]
    omega

/-- The tagged chunks of all adds flatten to the total passage count. -/
theorem length_flatten_tagged (adds : List (List Chunk × String × Nat)) :
    ((adds.map taggedOf).flatten).length = totalPassages adds := by
  induction adds with
  | nil => rfl
  | cons a rest ih =>
    simp only [List.map_cons, List.flatten_cons, List.length_append, ih,
      totalPassages, List.map_cons, List.sum_cons]
    simp [taggedOf, totalPassages]

/-! ## Claim theorems -/

/-- C10: calling flush on the Batch Accumulator while its buffer is empty
returns the empty list and changes nothing — no `embed_documents` call is
issued, the batch counter is not incremented, the provider oracle is not
consumed, and the state is identical; likewise `finalize` on an empty
buffer. -/
theorem C10_empty_flush_is_noop (plan : List Bool) (s : BatchState)
    (h : s.stagingBuffer = []) :
    flush_batch plan s = ⟨s, [], plan, .ok []⟩ ∧
    finalize plan s = ⟨s, [], plan, .ok []⟩ := by
  constructor <;> simp [flush_batch, finalize, h]

/-- C10 at a concrete input: an empty fresh processor of capacity 5. -/
theorem C10_empty_flush_is_noop_witness :
    flush_batch [true] (BatchState.init 5) =
      ⟨BatchState.init 5, [], [true], .ok []⟩ ∧
    finalize [true] (BatchState.init 5) =
      ⟨BatchState.init 5, [], [true], .ok []⟩ :=
  C10_empty_flush_is_noop [true] (BatchState.init 5) rfl

/-- C6: the Adaptive Chunker keeps any document under 300 tokens whole as
exactly one passage (so a 299-token document yields exactly 1 passage),
while a document of exactly 300 tokens is handed to the splitter with
target size 400 and overlap 100 — the tier boundary at 300 is closed on
the splitting side. -/
theorem C6_chunk_tier_boundary (tok : String → Nat)
    (split : Nat → Nat → Chunk → List Chunk) (d : Chunk) :
    (tok d.pageContent < 300 →
      adaptive_chunk_documents tok split [d] = [d]) ∧
    (tok d.pageContent = 300 →
      adaptive_chunk_documents tok split [d] = split 400 100 d) := by
  constructor
  · intro h
    simp [adaptive_chunk_documents, h]
  · intro h
    simp [adaptive_chunk_documents, h]

/-- C6 at concrete inputs: tokenizers measuring exactly 299 and exactly
300 tokens. -/
theorem C6_chunk_tier_boundary_witness :
    adaptive_chunk_documents (fun _ => 299) splitNone
      [⟨"doc", []⟩] = [⟨"doc", []⟩] ∧
    adaptive_chunk_documents (fun _ => 300) splitNone
      [⟨"doc", []⟩] = splitNone 400 100 ⟨"doc", []⟩ :=
  ⟨(C6_chunk_tier_boundary (fun _ => 299) splitNone ⟨"doc", []⟩).1 (by decide),
   (C6_chunk_tier_boundary (fun _ => 300) splitNone ⟨"doc", []⟩).2 rfl⟩

/-- C7: `update_document_status` sets `num_chunks` and `status` together
in one UPDATE, and when no row carries the hash it is a silent no-op: the
function is total (raises nothing) and returns the Registry unchanged. -/
theorem C7_update_status_both_fields_and_silent (reg : Registry)
    (h : String) (n : Nat) (st : String) :
    ((∀ r ∈ reg, r.content_hash ≠ h) →
      update_document_status reg h n st = reg) ∧
    (∀ r ∈ update_document_status reg h n st,
      r.content_hash = h → r.num_chunks = n ∧ r.status = st) := by
  constructor
  · intro hall
    unfold update_document_status
    conv_rhs => rw [← List.map_id reg]
    refine List.map_congr_left ?_
    intro r hr
    simp [hall r hr]
  · intro r hr hrh
    unfold update_document_status at hr
    rcases List.mem_map.1 hr with ⟨r0, hr0, heq⟩
    by_cases hc : r0.content_hash = h
    · rw [← heq]
      simp [hc]
    · rw [← heq] at hrh
      simp [hc] at hrh

/-- C7 at a concrete input: a one-row Registry, a missing hash (silent
no-op) and the present hash (both fields set by the one UPDATE). -/
theorem C7_update_status_both_fields_and_silent_witness :
    update_document_status [⟨1, "a.txt", none, none, none, none, 0, "a", statusPending, ""⟩]
      "zzz" 7 statusEmbedded =
      [⟨1, "a.txt", none, none, none, none, 0, "a", statusPending, ""⟩] ∧
    (⟨1, "a.txt", none, none, none, none, 7, "a", statusEmbedded, ""⟩ : Row).num_chunks = 7 ∧
    (⟨1, "a.txt", none, none, none, none, 7, "a", statusEmbedded, ""⟩ : Row).status = statusEmbedded :=
  ⟨(C7_update_status_both_fields_and_silent
      [⟨1, "a.txt", none, none, none, none, 0, "a", statusPending, ""⟩]
      "zzz" 7 statusEmbedded).1 (by decide),
   (C7_update_status_both_fields_and_silent
      [⟨1, "a.txt", none, none, none, none, 0, "a", statusPending, ""⟩]
      "a" 7 statusEmbedded).2
      ⟨1, "a.txt", none, none, none, none, 7, "a", statusEmbedded, ""⟩
      (by simp [update_document_status, statusPending, statusEmbedded])
      rfl⟩

/-- C5: when the first open of the vector index fails, `get_qdrant_client`
performs exactly one automatic recovery — it removes the stale `*.lock`
artifacts, waits, and retries the open exactly once (two open attempts in
total). If the retry succeeds (the stale-lock-but-no-holder environment)
the call returns the client; if it fails again the error is fatal and
surfaced, with no further retries. -/
theorem C5_lock_recovery (files : List String) (open2 : Bool) :
    ((get_qdrant_client files false open2).1.count QEvent.openAttempt = 2) ∧
    ((get_qdrant_client files false open2).1.count QEvent.sleep = 1) ∧
    (∀ f ∈ (force_clear_qdrant_locks files).1, f.endsWith ".lock" = false) ∧
    (open2 = true → (get_qdrant_client files false open2).2 = .ok ()) ∧
    (open2 = false → (get_qdrant_client files false open2).2 = .error ()) := by
  refine ⟨?_, ?_, ?_, ?_, ?_⟩
  · cases open2 <;>
      simp [get_qdrant_client, force_clear_qdrant_locks, List.count_append,
        List.count_cons, List.count_eq_zero]
  · cases open2 <;>
      simp [get_qdrant_client, force_clear_qdrant_locks, List.count_append,
        List.count_cons, List.count_eq_zero]
  · intro f hf
    unfold force_clear_qdrant_locks at hf
    simpa using (List.mem_filter.1 hf).2
  · intro h2
    subst h2
    simp [get_qdrant_client]
  · intro h2
    subst h2
    simp [get_qdrant_client]

/-- C5 at a concrete input: a directory holding one stale lock file, with
the lock not held so the retried open succeeds. -/
theorem C5_lock_recovery_witness :
    ((get_qdrant_client [".lock", "collection"] false true).1.count
        QEvent.openAttempt = 2) ∧
    ((get_qdrant_client [".lock", "collection"] false true).1.count
        QEvent.sleep = 1) ∧
    ((get_qdrant_client [".lock", "collection"] false true).2 = .ok ()) ∧
    ((get_qdrant_client [".lock", "collection"] false false).2 = .error ()) :=
  ⟨(C5_lock_recovery [".lock", "collection"] true).1,
   (C5_lock_recovery [".lock", "collection"] true).2.1,
   (C5_lock_recovery [".lock", "collection"] true).2.2.2.1 rfl,
   (C5_lock_recovery [".lock", "collection"] false).2.2.2.2 rfl⟩

/-- The update list a flush against a healthy provider returns. -/
def flushOkUpdates (s : BatchState) : List (String × Nat) :=
  exceptUpdates (flush_batch [] s).result

/-- C9: a successful flush returns one `(hash, count)` pair per passage in
the flushed batch, not one per document — a document whose hash is
recorded with count `n` and that has `k` chunks in the buffer appears `k`
times in the returned list, each time as the same pair `(h, n)`. -/
theorem C9_one_pair_per_passage (s : BatchState) (h : String) (n : Nat)
    (hh : h ≠ "") (hd : dictGet s.documentChunkCounts h = some n) :
    (flushOkUpdates s).countP (fun p => p = (h, n)) =
      s.stagingBuffer.countP (fun c => c.getMeta contentHashKey = some h) := by
  unfold flushOkUpdates flush_batch
  by_cases hbuf : s.stagingBuffer = []
  · simp [hbuf, exceptUpdates]
  · rw [if_neg hbuf]
    simp only [List.headD_nil, if_pos, exceptUpdates]
    rw [count_filterMap_eq_countP]
    refine List.countP_congr ?_
    intro c _
    have := updateOf_eq_some_iff s.documentChunkCounts c h n hh hd
    by_cases hc : updateOf s.documentChunkCounts c = some (h, n)
    · simp [hc, this.1 hc]
    · have : ¬ c.getMeta contentHashKey = some h := fun hcc => hc (this.2 hcc)
      simp [hc, this]

/-- C9 at a concrete input: two chunks of document `"a"` (recorded count
2) and one chunk of document `"b"` in the buffer; `("a", 2)` is returned
twice. -/
theorem C9_one_pair_per_passage_witness :
    (flushOkUpdates ⟨10,
      [⟨"x", [(contentHashKey, "a")]⟩, ⟨"y", [(contentHashKey, "a")]⟩,
       ⟨"z", [(contentHashKey, "b")]⟩], 0, [("a", 2), ("b", 1)]⟩).countP
      (fun p => p = ("a", 2)) = 2 :=
  C9_one_pair_per_passage ⟨10,
      [⟨"x", [(contentHashKey, "a")]⟩, ⟨"y", [(contentHashKey, "a")]⟩,
       ⟨"z", [(contentHashKey, "b")]⟩], 0, [("a", 2), ("b", 1)]⟩
    "a" 2 (by decide) (by decide)

/-- C4: the Registry never holds two rows with one content hash. Inserting
unknown content succeeds and yields exactly one row for that hash; a
second insert attempt with byte-identical content (same hash) is rejected
by the storage layer's UNIQUE constraint and leaves the Registry
unchanged, and the sync scan classifies a re-uploaded identical file as
already-existing by a pure `document_exists` lookup, so it is never
re-inserted. -/
theorem C4_registry_dedup (reg : Registry) (path : String) (parsed : Parsed)
    (h : String) (n : Nat) (now : String) (path2 : String)
    (parsed2 : Parsed) (n2 : Nat) (now2 : String)
    (habs : document_exists reg h = false) :
    ((attempt_insert reg path parsed h n now).2 = true) ∧
    (document_exists (attempt_insert reg path parsed h n now).1 h = true) ∧
    ((attempt_insert reg path parsed h n now).1.countP
        (fun r => r.content_hash = h) = 1) ∧
    (attempt_insert (attempt_insert reg path parsed h n now).1
        path2 parsed2 h n2 now2 =
      ((attempt_insert reg path parsed h n now).1, false)) ∧
    (∀ f : NewFile, f.hash = h →
      classify_scanned (attempt_insert reg path parsed h n now).1 [f] =
        ([], [f])) := by
  have hcount : reg.countP (fun r => r.content_hash = h) = 0 := by
    rw [List.countP_eq_zero]
    intro r hr
    have := List.any_eq_false.1 (by rw [← habs]; rfl) r hr
    simpa using this
  have hins :
      (attempt_insert reg path parsed h n now).1 = reg ++ [{
        id := reg.length + 1
        path := path
        citation := lookupStr parsed.metadata "citation"
        source_type := lookupStr parsed.metadata "source_type"
        source_id := lookupStr parsed.metadata "source_id"
        date := lookupStr parsed.metadata "date"
        num_chunks := n
        content_hash := h
        status := statusPending
        added_at := now }] ∧
      (attempt_insert reg path parsed h n now).2 = true := by
    unfold attempt_insert insert_document
    rw [habs]
    exact ⟨rfl, rfl⟩
  have hex : document_exists (attempt_insert reg path parsed h n now).1 h = true := by
    rw [hins.1]
    unfold document_exists
    simp
  refine ⟨hins.2, hex, ?_, ?_, ?_⟩
  · rw [hins.1, List.countP_append, hcount]
    simp
  · generalize hg : (attempt_insert reg path parsed h n now).1 = reg1 at hex ⊢
    unfold attempt_insert insert_document
    rw [hex]
    simp
  · intro f hf
    generalize hg : (attempt_insert reg path parsed h n now).1 = reg1 at hex ⊢
    unfold classify_scanned
    simp [hf, hex]

/-- C4 at a concrete input: inserting hash `"a"` into the empty Registry,
then re-uploading byte-identical content. -/
theorem C4_registry_dedup_witness :
    ((attempt_insert [] "a.txt" ⟨"contentA", []⟩ "a" 0 "").2 = true) ∧
    (document_exists (attempt_insert [] "a.txt" ⟨"contentA", []⟩ "a" 0 "").1 "a" = true) ∧
    ((attempt_insert [] "a.txt" ⟨"contentA", []⟩ "a" 0 "").1.countP
        (fun r => r.content_hash = "a") = 1) ∧
    (attempt_insert (attempt_insert [] "a.txt" ⟨"contentA", []⟩ "a" 0 "").1
        "copy-of-a.txt" ⟨"contentA", []⟩ "a" 0 "" =
      ((attempt_insert [] "a.txt" ⟨"contentA", []⟩ "a" 0 "").1, false)) ∧
    (classify_scanned (attempt_insert [] "a.txt" ⟨"contentA", []⟩ "a" 0 "").1
        [fileA] = ([], [fileA])) :=
  ⟨(C4_registry_dedup [] "a.txt" ⟨"contentA", []⟩ "a" 0 ""
      "copy-of-a.txt" ⟨"contentA", []⟩ 0 "" rfl).1,
   (C4_registry_dedup [] "a.txt" ⟨"contentA", []⟩ "a" 0 ""
      "copy-of-a.txt" ⟨"contentA", []⟩ 0 "" rfl).2.1,
   (C4_registry_dedup [] "a.txt" ⟨"contentA", []⟩ "a" 0 ""
      "copy-of-a.txt" ⟨"contentA", []⟩ 0 "" rfl).2.2.1,
   (C4_registry_dedup [] "a.txt" ⟨"contentA", []⟩ "a" 0 ""
      "copy-of-a.txt" ⟨"contentA", []⟩ 0 "" rfl).2.2.2.1,
   (C4_registry_dedup [] "a.txt" ⟨"contentA", []⟩ "a" 0 ""
      "copy-of-a.txt" ⟨"contentA", []⟩ 0 "" rfl).2.2.2.2 fileA rfl⟩

/-- C8: a document's passages are never split across two flushes. For any
sequence of `add_document` calls (with the per-run-distinct content
hashes the orchestrator guarantees), every batch ever sent to the provider
— the `add`-triggered flushes and the `finalize` flush alike — contains,
for each added document, either all of its tagged passages or none of
them: all of a document's passages are appended to the buffer before the
flush check, and a flush always sends the entire buffer. -/
theorem C8_document_never_split (B : Nat)
    (adds : List (List Chunk × String × Nat))
    (hnd : (hashesOf adds).Nodup) :
    ∀ b ∈ allBatches (BatchState.init B) adds, ∀ a ∈ adds,
      filterHash a.2.1 b = taggedOf a ∨ filterHash a.2.1 b = [] := by
  intro b hb a ha
  have inv := runAddsOk_filter_inv adds (BatchState.init B) hnd
    (by intro a _; rfl)
  unfold allBatches at hb
  rcases List.mem_append.1 hb with hb1 | hb2
  · exact (inv.2 a ha).1 b hb1
  · unfold finalize at hb2
    by_cases hfin :
        (runAddsOk (BatchState.init B) adds).state.stagingBuffer ≠ []
    · rw [if_pos hfin] at hb2
      unfold flush_batch at hb2
      rw [if_neg (by simpa using hfin)] at hb2
      simp at hb2
      rw [hb2]
      exact (inv.2 a ha).2
    · rw [if_neg hfin] at hb2
      simp at hb2

/-- C8 at a concrete input: capacity 2, a two-passage document `"a"`
(whose add fills and flushes the buffer) then a one-passage document `"b"`
flushed by `finalize`; the first batch holds all of `"a"`'s passages. -/
theorem C8_document_never_split_witness :
    filterHash "a" [⟨"p1", [(contentHashKey, "a")]⟩,
        ⟨"p2", [(contentHashKey, "a")]⟩] =
      taggedOf ([⟨"p1", []⟩, ⟨"p2", []⟩], "a", 2) ∨
    filterHash "a" [⟨"p1", [(contentHashKey, "a")]⟩,
        ⟨"p2", [(contentHashKey, "a")]⟩] = [] :=
  C8_document_never_split 2
    [([⟨"p1", []⟩, ⟨"p2", []⟩], "a", 2), ([⟨"q1", []⟩], "b", 1)]
    (by decide)
    [⟨"p1", [(contentHashKey, "a")]⟩, ⟨"p2", [(contentHashKey, "a")]⟩]
    (by decide)
    ([⟨"p1", []⟩, ⟨"p2", []⟩], "a", 2)
    (by decide)

/-- C2, refuted as stated: with capacity `B = 2`, a single `add` of a
four-passage document has a total passage count that is a multiple of `B`,
yet produces one flush event (the flush sends the whole overfull buffer),
not `total_passages / B = 2`. -/
theorem C2_batch_attribution_counterexample :
    (allBatches (BatchState.init 2)
        [([⟨"t1", []⟩, ⟨"t2", []⟩, ⟨"t3", []⟩, ⟨"t4", []⟩], "d", 4)]).length
      = 1 ∧
    totalPassages
        [([⟨"t1", []⟩, ⟨"t2", []⟩, ⟨"t3", []⟩, ⟨"t4", []⟩], "d", 4)] = 4 ∧
    4 % 2 = 0 ∧
    (1 : Nat) ≠ 4 / 2 :=
  ⟨rfl, rfl, rfl, by decide⟩

/-- C2 (amended): for every sequence of `add` calls whose total passage
count is a multiple of `B`, the number of flush events is AT MOST
`total_passages / B` (a flush triggered by an overfull buffer sends more
than `B` passages, so equality can fail), and the union of the
`(hash, count)` pairs returned across all flushes plus `finalize()` is
exactly the set of documents added (for the distinct, non-empty hashes and
non-empty passage lists the orchestrator supplies). -/
theorem C2_batch_attribution_amended (B : Nat)
    (adds : List (List Chunk × String × Nat))
    (hB : 0 < B)
    (hmul : totalPassages adds % B = 0)
    (hnd : (hashesOf adds).Nodup)
    (hne : ∀ a ∈ adds, a.2.1 ≠ "")
    (hcs : ∀ a ∈ adds, a.1 ≠ []) :
    (allBatches (BatchState.init B) adds).length ≤ totalPassages adds / B ∧
    (∀ p, p ∈ allPairs (BatchState.init B) adds ↔
      ∃ a, a ∈ adds ∧ p = (a.2.1, a.2.2)) := by
  constructor
  · have hbig := runAddsOk_batch_length adds (BatchState.init B)
    have hcons := runAddsOk_conservation adds (BatchState.init B)
    have hlen : (runAddsOk (BatchState.init B) adds).embeds.flatten.length +
        (runAddsOk (BatchState.init B) adds).state.stagingBuffer.length =
        totalPassages adds := by
      have hcl := congrArg List.length hcons
      simp only [List.length_append] at hcl
      rw [length_flatten_tagged] at hcl
      simpa [BatchState.init] using hcl
    have hflat : B * (runAddsOk (BatchState.init B) adds).embeds.length ≤
        (runAddsOk (BatchState.init B) adds).embeds.flatten.length :=
      flatten_length_ge B _ hbig
    rw [show allBatches (BatchState.init B) adds =
        (runAddsOk (BatchState.init B) adds).embeds ++
          (finalize [] (runAddsOk (BatchState.init B) adds).state).embeds
      from rfl]
    by_cases hfin : (runAddsOk (BatchState.init B) adds).state.stagingBuffer = []
    · have hfe : (finalize []
          (runAddsOk (BatchState.init B) adds).state).embeds = [] := by
        simp [finalize, hfin]
      rw [hfe, List.append_nil, Nat.le_div_iff_mul_le hB]
      have hb0 :
          (runAddsOk (BatchState.init B) adds).state.stagingBuffer.length
            = 0 := by
        rw [hfin]
        rfl
      rw [Nat.mul_comm]
      omega
    · have hfe : (finalize []
          (runAddsOk (BatchState.init B) adds).state).embeds =
          [(runAddsOk (BatchState.init B) adds).state.stagingBuffer] := by
        unfold finalize flush_batch
        rw [if_pos (by simpa using hfin), if_neg hfin]
        simp
      rw [hfe]
      have hlb : 1 ≤
          (runAddsOk (BatchState.init B) adds).state.stagingBuffer.length := by
        rcases hq : (runAddsOk (BatchState.init B) adds).state.stagingBuffer
          with _ | ⟨c, cl⟩
        · exact absurd hq hfin
        · simp
      obtain ⟨m, hm⟩ := Nat.dvd_of_mod_eq_zero hmul
      have h1 : B * (runAddsOk (BatchState.init B) adds).embeds.length + 1 ≤
          totalPassages adds := by
        omega
      rw [hm] at h1
      have hkm : (runAddsOk (BatchState.init B) adds).embeds.length < m := by
        have := Nat.lt_of_mul_lt_mul_left
          (show B * (runAddsOk (BatchState.init B) adds).embeds.length <
            B * m by omega)
        exact this
      rw [hm, Nat.mul_div_cancel_left m hB]
      simp only [List.length_append, List.length_cons, List.length_nil]
      omega
  · intro p
    rw [runAddsOk_pairs adds (BatchState.init B) hnd hne
      (by intro a _; rfl) p]
    constructor
    · rintro (hp | ⟨a, ha, _, hp⟩)
      · simp [BatchState.init] at hp
      · exact ⟨a, ha, hp⟩
    · rintro ⟨a, ha, hp⟩
      exact Or.inr ⟨a, ha, hcs a ha, hp⟩

/-- C2 (amended) at a concrete input: capacity 1, one single-passage
document `"a"`; one flush happens and the pair `("a", 1)` is returned. -/
theorem C2_batch_attribution_amended_witness :
    (allBatches (BatchState.init 1) [([⟨"w", []⟩], "a", 1)]).length ≤
      totalPassages [([⟨"w", []⟩], "a", 1)] / 1 ∧
    ("a", 1) ∈ allPairs (BatchState.init 1) [([⟨"w", []⟩], "a", 1)] :=
  ⟨(C2_batch_attribution_amended 1 [([⟨"w", []⟩], "a", 1)]
      (by decide) (by decide) (by decide) (by decide) (by decide)).1,
   ((C2_batch_attribution_amended 1 [([⟨"w", []⟩], "a", 1)]
      (by decide) (by decide) (by decide) (by decide) (by decide)).2
      ("a", 1)).2 ⟨([⟨"w", []⟩], "a", 1), by simp, rfl⟩⟩

/-- C1, evaluated at its failing input. Two new one-passage files `a.txt`
(hash `"a"`) and `b.txt` (hash `"b"`) are synced with batch size 2 and a
provider that fails the first (and only) flush. The single
`embed_documents` call carried the passages of BOTH documents; the
accumulator's buffer is cleared and the failure is propagated to the
caller (recorded in the run's error list, `errors = 1`); but the Registry
ends with document `"a"` at `status="pending", num_chunks=1` — not
`status="error", num_chunks=0` as the claim requires for every document of
the failed batch. Only the document being processed when the flush fired
(`"b"`) is marked `error`: `flush_batch` builds `error_updates` for the
whole batch and then discards it, and `sync_documents`'s handler marks
only the current file. -/
theorem C1_flush_failure_leaves_batchmate_pending :
    (sync_documents tokShort splitNone [false] [] 2 [fileA, fileB]).toOption.map
        (fun s => (regSnapshot s.reg, s.embeds, s.bp.stagingBuffer, s.errors)) =
      some ([("a", 1, statusPending), ("b", 0, statusError)],
        [[⟨"contentA", [(contentHashKey, "a")]⟩,
          ⟨"contentB", [(contentHashKey, "b")]⟩]],
        [], 1) := by
  rfl

/-- C3, evaluated at a failing input. Three new one-passage files are
synced with batch size 2; the first flush (containing the passages of
`"a"` and `"b"`) fails, the finalize flush (containing `"c"`) succeeds.
The run completes without a fatal error (the result is `Except.ok`), and
document `"a"` — whose passage WAS handed to the Accumulator, as the first
recorded `embed_documents` call shows — still ends the run with
`status="pending"`, contradicting the claim that only documents whose
passages never reached the Accumulator may stay `pending`. -/
theorem C3_nonfatal_run_leaves_handed_document_pending :
    (sync_documents tokShort splitNone [false] [] 2 [fileA, fileB, fileC]).toOption.map
        (fun s => (regSnapshot s.reg, s.embeds, s.errors, s.processed)) =
      some ([("a", 1, statusPending), ("b", 0, statusError),
             ("c", 1, statusEmbedded)],
        [[⟨"contentA", [(contentHashKey, "a")]⟩,
          ⟨"contentB", [(contentHashKey, "b")]⟩],
         [⟨"contentC", [(contentHashKey, "c")]⟩]],
        1, 2) := by
  rfl

end HRA
